import Mathlib

/-!
Verification of the authenticated-encryption helper (`encrypt/encrypt.go`):
`Encrypt` (Seal), `Decrypt` (Open) and `GenerateKey` over AES-256-GCM with
the wire format `base64(nonce || ciphertext_with_tag)`.

Bytes are modelled as `List Nat` with every element `< 256`.  The Go
standard-library collaborators (the AEAD built from AES-256, and the secure
random source) are modelled as structures whose property fields record the
guarantees the spec assigns to them; the wrapper code itself is translated
directly from the source.
-/

namespace Encrypt

abbrev Bytes := List Nat

/-- `Valid bs` says every element of `bs` is a byte value. -/
def Valid (bs : Bytes) : Prop := ∀ b ∈ bs, b < 256

/-! ### Base64 (standard alphabet, `=` padding), modelling Go `encoding/base64.StdEncoding` -/

/-- The standard base64 alphabet, in index order. -/
def b64Alphabet : List Char :=
  ("ABCDEFGHIJKLMNOPQRSTUVWXYZabcdefghijklmnopqrstuvwxyz0123456789+/").toList

/-- The character encoding the 6-bit value `v`. -/
def b64Char (v : Nat) : Char := b64Alphabet.getD v 'A'

/-- The 6-bit value of a character, `none` for characters outside the
standard alphabet (in particular for `'-'`, `'_'` and `'='`). -/
def b64Value (c : Char) : Option Nat :=
  if 'A' ≤ c ∧ c ≤ 'Z' then some (c.toNat - 65)
  else if 'a' ≤ c ∧ c ≤ 'z' then some (c.toNat - 97 + 26)
  else if '0' ≤ c ∧ c ≤ '9' then some (c.toNat - 48 + 52)
  else if c = '+' then some 62
  else if c = '/' then some 63
  else none

/-- Standard base64 encoding of a byte list, three bytes to four characters,
with `'='` padding closing a final group of one or two bytes. -/
def b64EncodeBytes : Bytes → List Char
  | [] => []
  | [b1] => [b64Char (b1 / 4), b64Char (b1 % 4 * 16), '=', '=']
  | [b1, b2] =>
      [b64Char (b1 / 4), b64Char (b1 % 4 * 16 + b2 / 16), b64Char (b2 % 16 * 4), '=']
  | b1 :: b2 :: b3 :: rest =>
      b64Char (b1 / 4) :: b64Char (b1 % 4 * 16 + b2 / 16) ::
        b64Char (b2 % 16 * 4 + b3 / 64) :: b64Char (b3 % 64) :: b64EncodeBytes rest

def b64Encode (bs : Bytes) : String := String.mk (b64EncodeBytes bs)

/-- Standard base64 decoding: input length must be a multiple of four, all
characters from the standard alphabet, `'='` only as final padding. -/
def b64DecodeChars : List Char → Option Bytes
  | [] => some []
  | a :: b :: c :: d :: rest =>
      match b64Value a, b64Value b with
      | some v1, some v2 =>
        if c = '=' then
          if d = '=' ∧ rest = [] then some [v1 * 4 + v2 / 16] else none
        else
          match b64Value c with
          | some v3 =>
            if d = '=' then
              if rest = [] then some [v1 * 4 + v2 / 16, v2 % 16 * 16 + v3 / 4] else none
            else
              match b64Value d with
              | some v4 =>
                  (b64DecodeChars rest).map
                    (fun tail => (v1 * 4 + v2 / 16) :: (v2 % 16 * 16 + v3 / 4) ::
                      (v3 % 4 * 64 + v4) :: tail)
              | none => none
          | none => none
      | _, _ => none
  | _ => none

/-- Go's decoder ignores carriage returns and line feeds before decoding. -/
def b64Decode (s : String) : Option Bytes :=
  b64DecodeChars (s.data.filter (fun c => c != '\x0d' && c != '\x0a'))

theorem b64Value_b64Char : ∀ v : Nat, v < 64 → b64Value (b64Char v) = some v := by
  decide

theorem b64Char_ne_eq (v : Nat) : b64Char v ≠ '=' ∧ b64Char v ≠ '\x0d' ∧ b64Char v ≠ '\x0a' := by
  by_cases h : v < 64
  · revert v h; decide
  · have hlen : b64Alphabet.length = 64 := by decide
    have : b64Char v = 'A' := by
      unfold b64Char
      exact List.getD_eq_default _ _ (by omega)
    rw [this]; refine ⟨by decide, by decide, by decide⟩

example : b64EncodeBytes [104, 101, 108, 108, 111] = "aGVsbG8=".toList := by decide
example : b64DecodeChars ("aGVsbG8=".toList) = some [104, 101, 108, 108, 111] := by decide
example : b64Decode "aGVsbG8=" = some [104, 101, 108, 108, 111] := by decide
example : b64Decode "aGVsbG8" = none := by decide
example : b64Decode "aGVsb-8=" = none := by decide

/-- Decoding inverts encoding on byte lists. -/
theorem b64_decode_encode : ∀ bs : Bytes, Valid bs →
    b64DecodeChars (b64EncodeBytes bs) = some bs
  | [], _ => rfl
  | [b1], h => by
      have hb1 : b1 < 256 := h b1 (by simp)
      have h1 : b64Value (b64Char (b1 / 4)) = some (b1 / 4) :=
        b64Value_b64Char _ (by omega)
      have h2 : b64Value (b64Char (b1 % 4 * 16)) = some (b1 % 4 * 16) :=
        b64Value_b64Char _ (by omega)
      simp [b64EncodeBytes, b64DecodeChars, h1, h2]
      omega
  | [b1, b2], h => by
      have hb1 : b1 < 256 := h b1 (by simp)
      have hb2 : b2 < 256 := h b2 (by simp)
      have h1 : b64Value (b64Char (b1 / 4)) = some (b1 / 4) :=
        b64Value_b64Char _ (by omega)
      have h2 : b64Value (b64Char (b1 % 4 * 16 + b2 / 16)) = some (b1 % 4 * 16 + b2 / 16) :=
        b64Value_b64Char _ (by omega)
      have h3 : b64Value (b64Char (b2 % 16 * 4)) = some (b2 % 16 * 4) :=
        b64Value_b64Char _ (by omega)
      have hc3 : b64Char (b2 % 16 * 4) ≠ '=' := (b64Char_ne_eq _).1
      simp [b64EncodeBytes, b64DecodeChars, h1, h2, h3, hc3]
      omega
  | [b1, b2, b3], h => by
      have hb1 : b1 < 256 := h b1 (by simp)
      have hb2 : b2 < 256 := h b2 (by simp)
      have hb3 : b3 < 256 := h b3 (by simp)
      have h1 : b64Value (b64Char (b1 / 4)) = some (b1 / 4) :=
        b64Value_b64Char _ (by omega)
      have h2 : b64Value (b64Char (b1 % 4 * 16 + b2 / 16)) = some (b1 % 4 * 16 + b2 / 16) :=
        b64Value_b64Char _ (by omega)
      have h3 : b64Value (b64Char (b2 % 16 * 4 + b3 / 64)) = some (b2 % 16 * 4 + b3 / 64) :=
        b64Value_b64Char _ (by omega)
      have h4 : b64Value (b64Char (b3 % 64)) = some (b3 % 64) :=
        b64Value_b64Char _ (by omega)
      have hc3 : b64Char (b2 % 16 * 4 + b3 / 64) ≠ '=' := (b64Char_ne_eq _).1
      have hc4 : b64Char (b3 % 64) ≠ '=' := (b64Char_ne_eq _).1
      simp [b64EncodeBytes, b64DecodeChars, h1, h2, h3, h4, hc3, hc4]
      omega
  | b1 :: b2 :: b3 :: b4 :: rest, h => by
      have hb1 : b1 < 256 := h b1 (by simp)
      have hb2 : b2 < 256 := h b2 (by simp)
      have hb3 : b3 < 256 := h b3 (by simp)
      have ih := b64_decode_encode (b4 :: rest) (fun b hb => h b (by simp [hb]))
      have h1 : b64Value (b64Char (b1 / 4)) = some (b1 / 4) :=
        b64Value_b64Char _ (by omega)
      have h2 : b64Value (b64Char (b1 % 4 * 16 + b2 / 16)) = some (b1 % 4 * 16 + b2 / 16) :=
        b64Value_b64Char _ (by omega)
      have h3 : b64Value (b64Char (b2 % 16 * 4 + b3 / 64)) = some (b2 % 16 * 4 + b3 / 64) :=
        b64Value_b64Char _ (by omega)
      have h4 : b64Value (b64Char (b3 % 64)) = some (b3 % 64) :=
        b64Value_b64Char _ (by omega)
      have hc3 : b64Char (b2 % 16 * 4 + b3 / 64) ≠ '=' := (b64Char_ne_eq _).1
      have hc4 : b64Char (b3 % 64) ≠ '=' := (b64Char_ne_eq _).1
      simp [b64EncodeBytes, b64DecodeChars, h1, h2, h3, h4, hc3, hc4, ih]
      omega

/-- The encoding of `n` bytes has `ceil(n/3) * 4` characters. -/
theorem b64EncodeBytes_length : ∀ bs : Bytes,
    (b64EncodeBytes bs).length = (bs.length + 2) / 3 * 4
  | [] => rfl
  | [_] => by simp [b64EncodeBytes]
  | [_, _] => by simp [b64EncodeBytes]
  | [_, _, _] => by simp [b64EncodeBytes]
  | _ :: _ :: _ :: b4 :: rest => by
      simp only [b64EncodeBytes, List.length_cons, b64EncodeBytes_length (b4 :: rest)]
      omega

/-- Every character of an encoding is either padding or an alphabet character. -/
theorem b64EncodeBytes_chars : ∀ bs : Bytes, ∀ ch ∈ b64EncodeBytes bs,
    ch = '=' ∨ ∃ v, ch = b64Char v
  | [], ch, hch => absurd hch (by simp [b64EncodeBytes])
  | [b1], ch, hch => by
      simp only [b64EncodeBytes, List.mem_cons, List.not_mem_nil, or_false] at hch
      rcases hch with h | h | h | h <;> subst h <;> simp
  | [b1, b2], ch, hch => by
      simp only [b64EncodeBytes, List.mem_cons, List.not_mem_nil, or_false] at hch
      rcases hch with h | h | h | h <;> subst h <;> simp
  | [b1, b2, b3], ch, hch => by
      simp only [b64EncodeBytes, List.mem_cons, List.not_mem_nil, or_false] at hch
      rcases hch with h | h | h | h <;> subst h <;> exact Or.inr ⟨_, rfl⟩
  | b1 :: b2 :: b3 :: b4 :: rest, ch, hch => by
      simp only [b64EncodeBytes, List.mem_cons] at hch
      rcases hch with h | h | h | h | h
      · subst h; exact Or.inr ⟨_, rfl⟩
      · subst h; exact Or.inr ⟨_, rfl⟩
      · subst h; exact Or.inr ⟨_, rfl⟩
      · subst h; exact Or.inr ⟨_, rfl⟩
      · exact b64EncodeBytes_chars (b4 :: rest) ch h

/-- Encoded output contains no carriage return or line feed, so Go's
newline-skipping decode leaves it unchanged. -/
theorem filter_crlf_encode (bs : Bytes) :
    (b64EncodeBytes bs).filter (fun c => c != '\x0d' && c != '\x0a') = b64EncodeBytes bs := by
  apply List.filter_eq_self.mpr
  intro ch hch
  rcases b64EncodeBytes_chars bs ch hch with h | ⟨v, h⟩
  · subst h; decide
  · subst h
    have := b64Char_ne_eq v
    simp [this.2.1, this.2.2]

/-- String-level roundtrip: decoding an encoded byte list succeeds. -/
theorem b64Decode_b64Encode (bs : Bytes) (h : Valid bs) :
    b64Decode (b64Encode bs) = some bs := by
  unfold b64Decode b64Encode
  rw [show (String.mk (b64EncodeBytes bs)).data = b64EncodeBytes bs from rfl,
    filter_crlf_encode, b64_decode_encode bs h]

/-- Characters of a successfully decoded string are padding or alphabet. -/
theorem b64DecodeChars_mem : ∀ (l : List Char) (bs : Bytes), b64DecodeChars l = some bs →
    ∀ ch ∈ l, ch = '=' ∨ (b64Value ch).isSome
  | [], _, _, ch, hch => absurd hch (by simp)
  | [_], _, h, _, _ => by simp [b64DecodeChars] at h
  | [_, _], _, h, _, _ => by simp [b64DecodeChars] at h
  | [_, _, _], _, h, _, _ => by simp [b64DecodeChars] at h
  | a :: b :: c :: d :: rest, bs, h, ch, hch => by
      simp only [b64DecodeChars] at h
      simp only [List.mem_cons] at hch
      split at h
      next v1 v2 hv1 hv2 =>
        split at h
        next hc =>
          split at h
          next hde =>
            rcases hch with h' | h' | h' | h' | h'
            · subst h'; simp [hv1]
            · subst h'; simp [hv2]
            · subst h'; exact Or.inl hc
            · subst h'; exact Or.inl hde.1
            · rw [hde.2] at h'; exact absurd h' (by simp)
          next => exact absurd h (by simp)
        next hc =>
          split at h
          next v3 hv3 =>
            split at h
            next hd =>
              split at h
              next hre =>
                rcases hch with h' | h' | h' | h' | h'
                · subst h'; simp [hv1]
                · subst h'; simp [hv2]
                · subst h'; simp [hv3]
                · subst h'; exact Or.inl hd
                · rw [hre] at h'; exact absurd h' (by simp)
              next => exact absurd h (by simp)
            next hd =>
              split at h
              next v4 hv4 =>
                rcases Option.map_eq_some'.mp h with ⟨tail, htail, _⟩
                rcases hch with h' | h' | h' | h' | h'
                · subst h'; simp [hv1]
                · subst h'; simp [hv2]
                · subst h'; simp [hv3]
                · subst h'; simp [hv4]
                · exact b64DecodeChars_mem rest tail htail ch h'
              next => exact absurd h (by simp)
          next => exact absurd h (by simp)
      next => exact absurd h (by simp)

/-- A successfully decoded character list has length divisible by four. -/
theorem b64DecodeChars_length_mod : ∀ (l : List Char) (bs : Bytes),
    b64DecodeChars l = some bs → l.length % 4 = 0
  | [], _, _ => rfl
  | [_], _, h => by simp [b64DecodeChars] at h
  | [_, _], _, h => by simp [b64DecodeChars] at h
  | [_, _, _], _, h => by simp [b64DecodeChars] at h
  | a :: b :: c :: d :: rest, bs, h => by
      simp only [b64DecodeChars] at h
      split at h
      next v1 v2 hv1 hv2 =>
        split at h
        next hc =>
          split at h
          next hde => simp [hde.2]
          next => exact absurd h (by simp)
        next hc =>
          split at h
          next v3 hv3 =>
            split at h
            next hd =>
              split at h
              next hre => simp [hre]
              next => exact absurd h (by simp)
            next hd =>
              split at h
              next v4 hv4 =>
                rcases Option.map_eq_some'.mp h with ⟨tail, htail, _⟩
                have := b64DecodeChars_length_mod rest tail htail
                simp only [List.length_cons]
                omega
              next => exact absurd h (by simp)
          next => exact absurd h (by simp)
      next => exact absurd h (by simp)

/-! ### Bit flips on byte lists -/

/-- Flip bit `i` of a byte list: XOR byte `i / 8` with `2 ^ (i % 8)`. -/
def flipBitL (bs : Bytes) (i : Nat) : Bytes :=
  bs.set (i / 8) (bs.getD (i / 8) 0 ^^^ 2 ^ (i % 8))

theorem flipBitL_length (bs : Bytes) (i : Nat) : (flipBitL bs i).length = bs.length :=
  List.length_set bs _ _

theorem xor_two_pow_ne (b k : Nat) : b ^^^ 2 ^ k ≠ b := by
  intro h
  have h1 : b ^^^ 2 ^ k ^^^ b = b ^^^ b := by rw [h]
  rw [Nat.xor_comm b (2 ^ k), Nat.xor_assoc, Nat.xor_self, Nat.xor_zero] at h1
  have h2 : 0 < 2 ^ k := Nat.pos_pow_of_pos k (by omega)
  omega

theorem getD_lt_of_valid (bs : Bytes) (j : Nat) (h : Valid bs) : bs.getD j 0 < 256 := by
  by_cases hj : j < bs.length
  · rw [List.getD_eq_getElem bs 0 hj]
    exact h _ (List.getElem_mem hj)
  · rw [List.getD_eq_default bs 0 (by omega)]
    omega

theorem xor_two_pow_lt (b k : Nat) (hb : b < 256) (hk : k < 8) : b ^^^ 2 ^ k < 256 := by
  have h1 : b < 2 ^ 8 := by norm_num at hb ⊢; omega
  have h2 : 2 ^ k < 2 ^ 8 := Nat.pow_lt_pow_right (by omega) hk
  have := Nat.xor_lt_two_pow h1 h2
  omega

theorem flipBitL_valid (bs : Bytes) (i : Nat) (h : Valid bs) : Valid (flipBitL bs i) := by
  intro b hb
  rcases List.mem_or_eq_of_mem_set hb with h' | h'
  · exact h b h'
  · subst h'
    exact xor_two_pow_lt _ _ (getD_lt_of_valid bs _ h) (Nat.mod_lt i (by omega))

theorem getD_set_self (l : Bytes) (j v : Nat) (h : j < l.length) :
    (l.set j v).getD j 0 = v := by
  simp [List.getD_eq_getElem?_getD, List.getElem?_set_self, h]

theorem flipBitL_ne (bs : Bytes) (i : Nat) (h : i / 8 < bs.length) : flipBitL bs i ≠ bs := by
  intro he
  have h1 : (flipBitL bs i).getD (i / 8) 0 = bs.getD (i / 8) 0 ^^^ 2 ^ (i % 8) :=
    getD_set_self bs _ _ h
  rw [he] at h1
  exact xor_two_pow_ne (bs.getD (i / 8) 0) (i % 8) h1.symm

theorem sum_set_add : ∀ (l : Bytes) (j v : Nat), j < l.length →
    (l.set j v).sum + l.getD j 0 = l.sum + v
  | [], j, v, h => absurd h (by simp)
  | a :: l, 0, v, _ => by simp [List.sum_cons]; omega
  | a :: l, j + 1, v, h => by
      have ih := sum_set_add l j v (by simpa using h)
      simp only [List.set_cons_succ, List.sum_cons, List.getD_cons_succ]
      omega

/-- Flipping one bit of a byte list changes its byte sum modulo 256. -/
theorem sum_mod_ne_of_flip (p : Bytes) (i : Nat) (hj : i / 8 < p.length)
    (hv : Valid p) : (flipBitL p i).sum % 256 ≠ p.sum % 256 := by
  intro he
  have hb : p.getD (i / 8) 0 < 256 := getD_lt_of_valid p _ hv
  have hb' : p.getD (i / 8) 0 ^^^ 2 ^ (i % 8) < 256 :=
    xor_two_pow_lt _ _ hb (Nat.mod_lt i (by omega))
  have hs := sum_set_add p (i / 8) (p.getD (i / 8) 0 ^^^ 2 ^ (i % 8)) hj
  have hne : p.getD (i / 8) 0 ^^^ 2 ^ (i % 8) ≠ p.getD (i / 8) 0 :=
    xor_two_pow_ne _ _
  unfold flipBitL at he
  omega

/-! ### The collaborators and the `encrypt` package -/

/-- Error cases of the `encrypt` package, one per error-return site in the
source (`errors.New` / `fmt.Errorf`). -/
inductive CryptoError where
  | invalidKeyLength
  | cipherCreationFailed
  | gcmCreationFailed
  | nonceGenerationFailed
  | base64DecodeFailed
  | ciphertextTooShort
  | decryptionFailed
  | keyGenerationFailed
deriving DecidableEq, Repr

/-- Spec taxonomy `InvalidKeyLength`: "key must be 32 bytes for AES-256". -/
def isInvalidKeyLength : CryptoError → Bool
  | .invalidKeyLength => true
  | _ => false

/-- Spec taxonomy `RandomnessUnavailable`: the secure random source failed
("nonce generation failed" / "key generation failed"). -/
def isRandomnessUnavailable : CryptoError → Bool
  | .nonceGenerationFailed => true
  | .keyGenerationFailed => true
  | _ => false

/-- Spec taxonomy `MalformedEnvelope`: "base64 decode failed" or
"ciphertext too short". -/
def isMalformedEnvelope : CryptoError → Bool
  | .base64DecodeFailed => true
  | .ciphertextTooShort => true
  | _ => false

/-- Spec taxonomy `AuthenticationFailed`: "decryption failed" wrapping the
AEAD open error. -/
def isAuthenticationFailed : CryptoError → Bool
  | .decryptionFailed => true
  | _ => false

/-- `gcm.NonceSize()` for the standard construction: 12 bytes. -/
def gcmNonceSize : Nat := 12

/-- The tag overhead `gcm.Overhead()` appended by `gcm.Seal`: 16 bytes. -/
def gcmTagSize : Nat := 16

/-- `aes.NewCipher` succeeds exactly on 16-, 24- or 32-byte keys. -/
def aesKeySizeOk (key : Bytes) : Bool :=
  key.length == 16 || key.length == 24 || key.length == 32

/-- The AES block size in bytes. -/
def aesBlockSize : Nat := 16

/-- `cipher.NewGCM` succeeds exactly on ciphers with a 128-bit block. -/
def gcmSupported (blockSize : Nat) : Bool := blockSize == 16

/-- Modelled from the spec: the cryptographically secure random source
(`crypto/rand.Reader` read with `io.ReadFull`), which lives outside this
repository.  A read either fails as a whole or returns exactly the
requested number of bytes. -/
structure RandomSource where
  read : Nat → Except Unit Bytes
  read_length : ∀ n b, read n = .ok b → b.length = n
  read_valid : ∀ n b, read n = .ok b → Valid b

/-- Modelled from the spec: the AEAD collaborator (`cipher.NewGCM` over the
AES-256 block cipher, outside this repository), per spec sections 4.1 and 6:
seal and open under a 12-byte nonce with a 16-byte tag and no associated
data.  The property fields record the guarantees the spec assigns to the
construction: output length, round-trip, rejection of any single-bit
corruption of the sealed data, rejection under a wrong nonce, and rejection
of inputs too short to contain a tag. -/
structure AEAD where
  Seal : Bytes → Bytes → Bytes
  Open : Bytes → Bytes → Option Bytes
  seal_length : ∀ n p, n.length = gcmNonceSize →
    (Seal n p).length = p.length + gcmTagSize
  seal_valid : ∀ n p, Valid n → Valid p → Valid (Seal n p)
  open_seal : ∀ n p, n.length = gcmNonceSize → Open n (Seal n p) = some p
  open_flip : ∀ n p i, n.length = gcmNonceSize → Valid n → Valid p →
    i < 8 * (Seal n p).length → Open n (flipBitL (Seal n p) i) = none
  open_wrong_nonce : ∀ n n' p, n.length = gcmNonceSize →
    n'.length = gcmNonceSize → n ≠ n' → Open n' (Seal n p) = none
  open_short : ∀ n d, d.length < gcmTagSize → Open n d = none

/-- `Encrypt` from `encrypt.go`, branch for branch.  The random nonce read
and the AEAD are the modelled collaborators; everything else follows the
source: key-length check, cipher creation, GCM creation, nonce generation,
seal, concatenation, base64 encoding. -/
def Encrypt (G : AEAD) (r : RandomSource) (plaintext key : Bytes) :
    Except CryptoError String :=
  if key.length ≠ 32 then .error .invalidKeyLength
  else if ¬ aesKeySizeOk key then .error .cipherCreationFailed
  else if ¬ gcmSupported aesBlockSize then .error .gcmCreationFailed
  else
    match r.read gcmNonceSize with
    | .error _ => .error .nonceGenerationFailed
    | .ok nonce => .ok (b64Encode (nonce ++ G.Seal nonce plaintext))

/-- `Decrypt` from `encrypt.go`, branch for branch: key-length check,
base64 decode, cipher creation, GCM creation, length check against the
nonce size, split at the nonce size, AEAD open. -/
def Decrypt (G : AEAD) (ciphertextB64 : String) (key : Bytes) :
    Except CryptoError Bytes :=
  if key.length ≠ 32 then .error .invalidKeyLength
  else
    match b64Decode ciphertextB64 with
    | none => .error .base64DecodeFailed
    | some data =>
      if ¬ aesKeySizeOk key then .error .cipherCreationFailed
      else if ¬ gcmSupported aesBlockSize then .error .gcmCreationFailed
      else if data.length < gcmNonceSize then .error .ciphertextTooShort
      else
        match G.Open (data.take gcmNonceSize) (data.drop gcmNonceSize) with
        | none => .error .decryptionFailed
        | some plaintext => .ok plaintext

/-- `GenerateKey` from `encrypt.go`: 32 bytes from the secure source. -/
def GenerateKey (r : RandomSource) : Except CryptoError Bytes :=
  match r.read 32 with
  | .error _ => .error .keyGenerationFailed
  | .ok key => .ok key

/-! ### A concrete AEAD satisfying the collaborator interface, used to
instantiate the theorems below on closed inputs. -/

/-- Four-byte digest: the byte sum modulo 256, zero-padded.  A single bit
flip in the input changes it. -/
def sumTag (c : Bytes) : Bytes := [c.sum % 256, 0, 0, 0]

/-- Demonstration seal: the payload, then the nonce and the digest as the
16-byte tag. -/
def demoSeal (n p : Bytes) : Bytes := p ++ (n ++ sumTag p)

/-- Demonstration open: recompute and compare the 16-byte tag. -/
def demoOpen (n d : Bytes) : Option Bytes :=
  if gcmTagSize ≤ d.length then
    if d.drop (d.length - gcmTagSize) = n ++ sumTag (d.take (d.length - gcmTagSize))
    then some (d.take (d.length - gcmTagSize)) else none
  else none

theorem demoSeal_length (n p : Bytes) (hn : n.length = gcmNonceSize) :
    (demoSeal n p).length = p.length + gcmTagSize := by
  simp [demoSeal, sumTag, hn, gcmNonceSize, gcmTagSize]

theorem demoSeal_take (n p : Bytes) (hn : n.length = gcmNonceSize) :
    (demoSeal n p).take ((demoSeal n p).length - gcmTagSize) = p := by
  rw [demoSeal_length n p hn, Nat.add_sub_cancel]
  exact List.take_left p (n ++ sumTag p)

theorem demoSeal_drop (n p : Bytes) (hn : n.length = gcmNonceSize) :
    (demoSeal n p).drop ((demoSeal n p).length - gcmTagSize) = n ++ sumTag p := by
  rw [demoSeal_length n p hn, Nat.add_sub_cancel]
  exact List.drop_left p (n ++ sumTag p)

theorem demoOpen_some {n d c : Bytes} (h : demoOpen n d = some c) :
    gcmTagSize ≤ d.length ∧ c = d.take (d.length - gcmTagSize) ∧
      d.drop (d.length - gcmTagSize) = n ++ sumTag c := by
  unfold demoOpen at h
  split at h
  next hle =>
    split at h
    next heq =>
      have hc : c = d.take (d.length - gcmTagSize) := by
        injection h with h'
        exact h'.symm
      exact ⟨hle, hc, hc ▸ heq⟩
    next => exact absurd h (by simp)
  next => exact absurd h (by simp)

theorem demoOpen_demoSeal (n p : Bytes) (hn : n.length = gcmNonceSize) :
    demoOpen n (demoSeal n p) = some p := by
  unfold demoOpen
  rw [demoSeal_take n p hn, demoSeal_drop n p hn,
    if_pos (by rw [demoSeal_length n p hn]; omega), if_pos rfl]

theorem demoOpen_wrong_nonce (n n' p : Bytes) (hn : n.length = gcmNonceSize)
    (hn' : n'.length = gcmNonceSize) (hne : n ≠ n') :
    demoOpen n' (demoSeal n p) = none := by
  cases hres : demoOpen n' (demoSeal n p) with
  | none => rfl
  | some c =>
      obtain ⟨hle, hc, hdrop⟩ := demoOpen_some hres
      rw [demoSeal_drop n p hn] at hdrop
      have hlen : n.length = n'.length := by rw [hn, hn']
      exact absurd (List.append_inj hdrop hlen).1 hne

theorem demoOpen_short (n d : Bytes) (h : d.length < gcmTagSize) :
    demoOpen n d = none := by
  unfold demoOpen
  rw [if_neg (by omega)]

theorem demoOpen_flip (n p : Bytes) (i : Nat) (hn : n.length = gcmNonceSize)
    (hvn : Valid n) (hvp : Valid p) (hi : i < 8 * (demoSeal n p).length) :
    demoOpen n (flipBitL (demoSeal n p) i) = none := by
  cases hres : demoOpen n (flipBitL (demoSeal n p) i) with
  | none => rfl
  | some c =>
      obtain ⟨hle, hc, hdrop⟩ := demoOpen_some hres
      have hdlen : (demoSeal n p).length = p.length + gcmTagSize :=
        demoSeal_length n p hn
      have hflen : (flipBitL (demoSeal n p) i).length = (demoSeal n p).length :=
        flipBitL_length _ _
      have hj : i / 8 < (demoSeal n p).length := by omega
      by_cases hcase : i / 8 < p.length
      · -- the flip lands in the payload: the recomputed digest changes
        have hd' : flipBitL (demoSeal n p) i = flipBitL p i ++ (n ++ sumTag p) := by
          unfold flipBitL demoSeal
          rw [List.getD_append _ _ 0 _ hcase, List.set_append_left _ _ hcase]
        have hl : (flipBitL p i ++ (n ++ sumTag p)).length - gcmTagSize =
            (flipBitL p i).length := by
          simp only [List.length_append, flipBitL_length, hn, sumTag,
            List.length_cons, List.length_nil, gcmNonceSize, gcmTagSize]
          omega
        have htake : (flipBitL (demoSeal n p) i).take
            ((flipBitL (demoSeal n p) i).length - gcmTagSize) = flipBitL p i := by
          rw [hd', hl]
          exact List.take_left _ _
        have hdrop' : (flipBitL (demoSeal n p) i).drop
            ((flipBitL (demoSeal n p) i).length - gcmTagSize) = n ++ sumTag p := by
          rw [hd', hl]
          exact List.drop_left _ _
        rw [hdrop', hc, htake] at hdrop
        have hsum : sumTag p = sumTag (flipBitL p i) :=
          List.append_cancel_left hdrop
        have : (flipBitL p i).sum % 256 = p.sum % 256 := by
          have := congrArg (fun l => l.headD 0) hsum
          simpa [sumTag] using this.symm
        exact absurd this (sum_mod_ne_of_flip p i hcase hvp)
      · -- the flip lands in the tag: the data would have to be unchanged
        have hplen : p.length ≤ i / 8 := by omega
        set v := (n ++ sumTag p).getD (i / 8 - p.length) 0 ^^^ 2 ^ (i % 8) with hv
        set t' := (n ++ sumTag p).set (i / 8 - p.length) v with ht'
        have hsplit : flipBitL (demoSeal n p) i = p ++ t' := by
          rw [ht', hv]
          unfold flipBitL demoSeal
          rw [List.getD_append_right _ _ 0 _ hplen, List.set_append_right _ _ hplen]
        have htlen : t'.length = gcmTagSize := by
          rw [ht', List.length_set, List.length_append, hn]
          simp [sumTag, gcmNonceSize, gcmTagSize]
        have hd'len : (p ++ t').length = p.length + gcmTagSize := by
          rw [List.length_append, htlen]
        have htake : (flipBitL (demoSeal n p) i).take
            ((flipBitL (demoSeal n p) i).length - gcmTagSize) = p := by
          rw [hsplit, hd'len, Nat.add_sub_cancel]
          exact List.take_left p t'
        have hdropt : (flipBitL (demoSeal n p) i).drop
            ((flipBitL (demoSeal n p) i).length - gcmTagSize) = t' := by
          rw [hsplit, hd'len, Nat.add_sub_cancel]
          exact List.drop_left p t'
        rw [hdropt, hc, htake] at hdrop
        have heq : flipBitL (demoSeal n p) i = demoSeal n p := by
          rw [hsplit, hdrop]; rfl
        exact absurd heq (flipBitL_ne _ i hj)

/-- The demonstration AEAD bundled as a concrete instance of the
collaborator interface. -/
def demoGCM : AEAD where
  Seal := demoSeal
  Open := demoOpen
  seal_length := demoSeal_length
  seal_valid := by
    intro n p hvn hvp b hb
    unfold demoSeal at hb
    rcases List.mem_append.mp hb with h | h
    · exact hvp b h
    · rcases List.mem_append.mp h with h' | h'
      · exact hvn b h'
      · simp only [sumTag, List.mem_cons, List.not_mem_nil, or_false] at h'
        rcases h' with h'' | h'' | h'' | h'' <;> subst h'' <;> omega
  open_seal := demoOpen_demoSeal
  open_flip := demoOpen_flip
  open_wrong_nonce := demoOpen_wrong_nonce
  open_short := demoOpen_short

/-- A deterministic stand-in for the random source, returning `v % 256`
repeated; used only to instantiate the theorems on closed inputs. -/
def constRand (v : Nat) : RandomSource where
  read := fun n => .ok (List.replicate n (v % 256))
  read_length := by
    intro n b h
    injection h with h'
    rw [← h']
    exact List.length_replicate n _
  read_valid := by
    intro n b h x hx
    injection h with h'
    rw [← h'] at hx
    have := List.eq_of_mem_replicate hx
    omega

/-- A random source whose reads always fail. -/
def failRand : RandomSource where
  read := fun _ => .error ()
  read_length := by intro n b h; simp at h
  read_valid := by intro n b h; simp at h

theorem aesKeySizeOk_of_32 (key : Bytes) (hk : key.length = 32) :
    aesKeySizeOk key = true := by
  simp [aesKeySizeOk, hk]

/-! ### The claims -/

/-- C3: `Encrypt` and `Decrypt` with a key whose length is not 32 bytes
fail with the invalid-key-length error (spec `InvalidKeyLength`),
regardless of the plaintext or envelope argument. -/
theorem C3_key_length_enforcement (G : AEAD) (r : RandomSource) (p : Bytes)
    (s : String) (key : Bytes) (hk : key.length ≠ 32) :
    Encrypt G r p key = .error .invalidKeyLength ∧
      Decrypt G s key = .error .invalidKeyLength ∧
      isInvalidKeyLength .invalidKeyLength = true := by
  refine ⟨?_, ?_, rfl⟩
  · unfold Encrypt; rw [if_pos hk]
  · unfold Decrypt; rw [if_pos hk]

/-- Witness for C3 at the spec's concrete scenario: an all-zero key of
length 31. -/
theorem C3_witness :
    Encrypt demoGCM (constRand 0) [104, 101, 108, 108, 111] (List.replicate 31 0)
        = .error .invalidKeyLength ∧
      Decrypt demoGCM "AAAAAAAAAAAAAAAAaGVsbG8AAAAAAAAAAAAAAAAUAAAA"
          (List.replicate 31 0) = .error .invalidKeyLength ∧
      isInvalidKeyLength .invalidKeyLength = true :=
  C3_key_length_enforcement demoGCM (constRand 0) [104, 101, 108, 108, 111]
    "AAAAAAAAAAAAAAAAaGVsbG8AAAAAAAAAAAAAAAAUAAAA" (List.replicate 31 0) (by simp)

/-- C1: for every 32-byte key and every plaintext (including the empty
one), a successful `Encrypt` followed by `Decrypt` with the same key
succeeds and returns the original plaintext byte-identically. -/
theorem C1_round_trip (G : AEAD) (r : RandomSource) (key p : Bytes) (env : String)
    (hk : key.length = 32) (hp : Valid p)
    (henc : Encrypt G r p key = .ok env) :
    Decrypt G env key = .ok p := by
  unfold Encrypt at henc
  rw [if_neg (by omega), if_neg (by simp [aesKeySizeOk_of_32 key hk]),
    if_neg (by decide)] at henc
  cases hr : r.read gcmNonceSize with
  | error e =>
      rw [hr] at henc
      exact absurd henc (by simp)
  | ok nonce =>
      simp only [hr] at henc
      have henv : env = b64Encode (nonce ++ G.Seal nonce p) := by
        injection henc with h'
        exact h'.symm
      have hn12 : nonce.length = gcmNonceSize := r.read_length _ _ hr
      have hnv : Valid nonce := r.read_valid _ _ hr
      have hsv : Valid (G.Seal nonce p) := G.seal_valid _ _ hnv hp
      have hdv : Valid (nonce ++ G.Seal nonce p) := by
        intro b hb
        rcases List.mem_append.mp hb with h | h
        · exact hnv b h
        · exact hsv b h
      have hdec : b64Decode env = some (nonce ++ G.Seal nonce p) := by
        rw [henv]; exact b64Decode_b64Encode _ hdv
      have htk : (nonce ++ G.Seal nonce p).take gcmNonceSize = nonce := by
        rw [← hn12]; exact List.take_left _ _
      have hdr : (nonce ++ G.Seal nonce p).drop gcmNonceSize = G.Seal nonce p := by
        rw [← hn12]; exact List.drop_left _ _
      unfold Decrypt
      rw [if_neg (by omega)]
      simp only [hdec]
      rw [if_neg (by simp [aesKeySizeOk_of_32 key hk]), if_neg (by decide),
        if_neg (by rw [List.length_append, hn12]; omega),
        htk, hdr, G.open_seal nonce p hn12]

/-- Witness for C1 at the spec's concrete scenario: all-zero 32-byte key
and plaintext `"hello"`. -/
theorem C1_witness :
    Decrypt demoGCM "AAAAAAAAAAAAAAAAaGVsbG8AAAAAAAAAAAAAAAAUAAAA"
        (List.replicate 32 0) = .ok [104, 101, 108, 108, 111] :=
  C1_round_trip demoGCM (constRand 0) (List.replicate 32 0)
    [104, 101, 108, 108, 111] "AAAAAAAAAAAAAAAAaGVsbG8AAAAAAAAAAAAAAAAUAAAA"
    (by simp) (by unfold Valid; decide) (by rfl)

/-- C2: flipping any single bit of the decoded envelope (nonce, ciphertext
or tag region) and re-encoding makes `Decrypt` with the original key fail
with the authentication error; the result is an error, so no partial or
altered plaintext accompanies it. -/
theorem C2_tamper_detection (G : AEAD) (r : RandomSource) (key p : Bytes)
    (env : String) (data : Bytes) (i : Nat)
    (hk : key.length = 32) (hp : Valid p)
    (henc : Encrypt G r p key = .ok env)
    (hdata : b64Decode env = some data)
    (hi : i < 8 * data.length) :
    Decrypt G (b64Encode (flipBitL data i)) key = .error .decryptionFailed ∧
      isAuthenticationFailed .decryptionFailed = true := by
  refine ⟨?_, rfl⟩
  unfold Encrypt at henc
  rw [if_neg (by omega), if_neg (by simp [aesKeySizeOk_of_32 key hk]),
    if_neg (by decide)] at henc
  cases hr : r.read gcmNonceSize with
  | error e =>
      rw [hr] at henc
      exact absurd henc (by simp)
  | ok nonce =>
      simp only [hr] at henc
      have henv : env = b64Encode (nonce ++ G.Seal nonce p) := by
        injection henc with h'; exact h'.symm
      have hn12 : nonce.length = gcmNonceSize := r.read_length _ _ hr
      have hnv : Valid nonce := r.read_valid _ _ hr
      have hsv : Valid (G.Seal nonce p) := G.seal_valid _ _ hnv hp
      have hdv : Valid (nonce ++ G.Seal nonce p) := fun b hb =>
        (List.mem_append.mp hb).elim (hnv b) (hsv b)
      have hdata' : data = nonce ++ G.Seal nonce p := by
        rw [henv, b64Decode_b64Encode _ hdv] at hdata
        injection hdata with h'
        exact h'.symm
      subst hdata'
      have hg : gcmNonceSize = 12 := rfl
      have hfv : Valid (flipBitL (nonce ++ G.Seal nonce p) i) :=
        flipBitL_valid _ _ hdv
      have hflen : (flipBitL (nonce ++ G.Seal nonce p) i).length =
          (nonce ++ G.Seal nonce p).length := flipBitL_length _ _
      have hdecf : b64Decode (b64Encode (flipBitL (nonce ++ G.Seal nonce p) i)) =
          some (flipBitL (nonce ++ G.Seal nonce p) i) := b64Decode_b64Encode _ hfv
      have hlen : (nonce ++ G.Seal nonce p).length = 12 + (G.Seal nonce p).length := by
        rw [List.length_append, hn12, hg]
      unfold Decrypt
      rw [if_neg (by omega)]
      simp only [hdecf]
      rw [if_neg (by simp [aesKeySizeOk_of_32 key hk]), if_neg (by decide),
        if_neg (by omega)]
      by_cases hcase : i / 8 < 12
      · -- the flip lands in the nonce region
        have hsp : flipBitL (nonce ++ G.Seal nonce p) i =
            flipBitL nonce i ++ G.Seal nonce p := by
          unfold flipBitL
          rw [List.getD_append _ _ 0 _ (by omega), List.set_append_left _ _ (by omega)]
        have hn'12 : (flipBitL nonce i).length = gcmNonceSize := by
          rw [flipBitL_length, hn12]
        have htk : (flipBitL (nonce ++ G.Seal nonce p) i).take gcmNonceSize
            = flipBitL nonce i := by
          rw [hsp, ← hn'12]
          exact List.take_left _ _
        have hdr : (flipBitL (nonce ++ G.Seal nonce p) i).drop gcmNonceSize
            = G.Seal nonce p := by
          rw [hsp, ← hn'12]
          exact List.drop_left _ _
        have hne : nonce ≠ flipBitL nonce i :=
          fun h => flipBitL_ne nonce i (by omega) h.symm
        rw [htk, hdr, G.open_wrong_nonce nonce (flipBitL nonce i) p hn12 hn'12 hne]
      · -- the flip lands in the sealed (ciphertext or tag) region
        have hsp : flipBitL (nonce ++ G.Seal nonce p) i =
            nonce ++ flipBitL (G.Seal nonce p) (i - 96) := by
          unfold flipBitL
          rw [List.getD_append_right _ _ 0 _ (by omega),
            List.set_append_right _ _ (by omega), hn12, hg]
          rw [show i / 8 - 12 = (i - 96) / 8 by omega,
            show i % 8 = (i - 96) % 8 by omega]
        have htk : (flipBitL (nonce ++ G.Seal nonce p) i).take gcmNonceSize
            = nonce := by
          rw [hsp, ← hn12]
          exact List.take_left _ _
        have hdr : (flipBitL (nonce ++ G.Seal nonce p) i).drop gcmNonceSize
            = flipBitL (G.Seal nonce p) (i - 96) := by
          rw [hsp, ← hn12]
          exact List.drop_left _ _
        rw [htk, hdr, G.open_flip nonce p (i - 96) hn12 hnv hp (by omega)]

/-- Witness for C2: the C1 scenario envelope with bit 0 of the decoded
bytes flipped (a nonce byte), re-encoded. -/
theorem C2_witness :
    Decrypt demoGCM "AQAAAAAAAAAAAAAAaGVsbG8AAAAAAAAAAAAAAAAUAAAA"
        (List.replicate 32 0) = .error .decryptionFailed ∧
      isAuthenticationFailed .decryptionFailed = true := by
  have h := C2_tamper_detection demoGCM (constRand 0) (List.replicate 32 0)
    [104, 101, 108, 108, 111] "AAAAAAAAAAAAAAAAaGVsbG8AAAAAAAAAAAAAAAAUAAAA"
    (List.replicate 12 0 ++ demoSeal (List.replicate 12 0) [104, 101, 108, 108, 111])
    0 (by simp) (by unfold Valid; decide) (by rfl) (by rfl) (by decide)
  exact h

/-- C4: with a 32-byte key, `Decrypt` fails with the base64-decode error on
a non-base64 envelope and with the too-short error when the decoded bytes
number fewer than 12; both are classified `MalformedEnvelope`, and no
decryption is attempted (the error is returned before the AEAD open). -/
theorem C4_malformed_envelope (G : AEAD) (key : Bytes) (s : String)
    (hk : key.length = 32) :
    (b64Decode s = none → Decrypt G s key = .error .base64DecodeFailed) ∧
    (∀ data, b64Decode s = some data → data.length < gcmNonceSize →
        Decrypt G s key = .error .ciphertextTooShort) ∧
    isMalformedEnvelope .base64DecodeFailed = true ∧
    isMalformedEnvelope .ciphertextTooShort = true := by
  refine ⟨?_, ?_, rfl, rfl⟩
  · intro hdec
    unfold Decrypt
    rw [if_neg (by omega), hdec]
  · intro data hdec hlen
    unfold Decrypt
    rw [if_neg (by omega)]
    simp only [hdec]
    rw [if_neg (by simp [aesKeySizeOk_of_32 key hk]), if_neg (by decide),
      if_pos hlen]

/-- Witness for C4: a non-base64 string and a 4-character envelope decoding
to 3 bytes. -/
theorem C4_witness :
    Decrypt demoGCM "!!!" (List.replicate 32 0) = .error .base64DecodeFailed ∧
      Decrypt demoGCM "AAAA" (List.replicate 32 0) = .error .ciphertextTooShort :=
  ⟨(C4_malformed_envelope demoGCM (List.replicate 32 0) "!!!" (by simp)).1 (by rfl),
   (C4_malformed_envelope demoGCM (List.replicate 32 0) "AAAA" (by simp)).2.1
     [0, 0, 0] (by rfl) (by decide)⟩

/-- A character of the standard alphabet is never the padding character. -/
theorem b64Char_bne_pad (v : Nat) : (b64Char v != '=') = true := by
  simp [bne_iff_ne, (b64Char_ne_eq v).1]

/-- Dropping the padding of an encoding of `n` bytes with `n % 3 ≠ 0`
leaves a character count that is not a multiple of four. -/
theorem b64EncodeBytes_filter_pad_mod : ∀ bs : Bytes, bs.length % 3 ≠ 0 →
    ((b64EncodeBytes bs).filter (fun c => c != '=')).length % 4 ≠ 0
  | [], h => absurd rfl h
  | [b1], _ => by
      simp [b64EncodeBytes, List.filter_cons, b64Char_bne_pad]
  | [b1, b2], _ => by
      simp [b64EncodeBytes, List.filter_cons, b64Char_bne_pad]
  | [b1, b2, b3], h => absurd (by simp) h
  | b1 :: b2 :: b3 :: b4 :: rest, h => by
      have ih := b64EncodeBytes_filter_pad_mod (b4 :: rest) (by
        simp only [List.length_cons] at h ⊢
        omega)
      simp only [b64EncodeBytes, List.filter_cons, b64Char_bne_pad, if_true,
        List.length_cons]
      omega

/-- The newline filter leaves a padding-stripped encoding unchanged. -/
theorem filter_crlf_strip (bs : Bytes) :
    ((b64EncodeBytes bs).filter (fun c => c != '=')).filter
        (fun c => c != '\x0d' && c != '\x0a')
      = (b64EncodeBytes bs).filter (fun c => c != '=') := by
  apply List.filter_eq_self.mpr
  intro ch hch
  rcases b64EncodeBytes_chars bs ch (List.mem_of_mem_filter hch) with h | ⟨v, h⟩
  · subst h; decide
  · subst h
    have := b64Char_ne_eq v
    simp [this.2.1, this.2.2]

/-- A string holding a character outside the alphabet (other than padding
and the skipped newlines) never decodes. -/
theorem b64Decode_none_of_bad (s : String) (ch : Char)
    (hmem : ch ∈ s.data) (hbad : b64Value ch = none) (hne : ch ≠ '=')
    (hcr : ch ≠ '\x0d') (hlf : ch ≠ '\x0a') :
    b64Decode s = none := by
  cases hdec : b64Decode s with
  | none => rfl
  | some bs =>
      unfold b64Decode at hdec
      have hmem' : ch ∈ s.data.filter (fun c => c != '\x0d' && c != '\x0a') :=
        List.mem_filter.mpr ⟨hmem, by simp [hcr, hlf]⟩
      rcases b64DecodeChars_mem _ bs hdec ch hmem' with h | h
      · exact absurd h hne
      · rw [hbad] at h; exact absurd h (by simp)

/-- The envelope with its `'='` padding characters removed. -/
def stripPadding (s : String) : String :=
  String.mk (s.data.filter (fun c => c != '='))

/-- C5: `Decrypt` accepts only standard-alphabet, well-padded base64: an
envelope containing a URL-safe character is rejected with the
base64-decode (malformed-envelope) error, and so is the unpadded variant
of any envelope that requires padding. -/
theorem C5_strict_base64 (G : AEAD) (key : Bytes) (hk : key.length = 32) :
    (∀ s : String, ('-' ∈ s.data ∨ '_' ∈ s.data) →
        Decrypt G s key = .error .base64DecodeFailed) ∧
    (∀ bs : Bytes, bs.length % 3 ≠ 0 →
        Decrypt G (stripPadding (b64Encode bs)) key
          = .error .base64DecodeFailed) := by
  constructor
  · intro s hs
    have hdec : b64Decode s = none := by
      rcases hs with h | h
      · exact b64Decode_none_of_bad s '-' h (by decide) (by decide) (by decide)
          (by decide)
      · exact b64Decode_none_of_bad s '_' h (by decide) (by decide) (by decide)
          (by decide)
    unfold Decrypt
    rw [if_neg (by omega), hdec]
  · intro bs h3
    have hdec : b64Decode (stripPadding (b64Encode bs)) = none := by
      show b64DecodeChars (((b64EncodeBytes bs).filter (fun c => c != '=')).filter
        (fun c => c != '\x0d' && c != '\x0a')) = none
      rw [filter_crlf_strip]
      cases hd : b64DecodeChars ((b64EncodeBytes bs).filter (fun c => c != '=')) with
      | none => rfl
      | some out =>
          exact absurd (b64DecodeChars_length_mod _ out hd)
            (b64EncodeBytes_filter_pad_mod bs h3)
    unfold Decrypt
    rw [if_neg (by omega), hdec]

/-- Witness for C5: an envelope holding `'-'`, and the unpadded encoding of
13 bytes. -/
theorem C5_witness :
    Decrypt demoGCM "aGVsb-8=" (List.replicate 32 0) = .error .base64DecodeFailed ∧
      Decrypt demoGCM "BwcHBwcHBwcHBwcHBw" (List.replicate 32 0)
        = .error .base64DecodeFailed := by
  have h := C5_strict_base64 demoGCM (List.replicate 32 0) (by simp)
  exact ⟨h.1 "aGVsb-8=" (Or.inl (by decide)),
    h.2 (List.replicate 13 7) (by decide)⟩

/-- C6: a successful `Seal` with a 32-byte key produces an envelope whose
decoded length is exactly `12 + L + 16` bytes and whose encoded length is
`ceil((12 + L + 16) / 3) * 4` characters. -/
theorem C6_envelope_length (G : AEAD) (r : RandomSource) (key p : Bytes)
    (env : String) (hk : key.length = 32) (hp : Valid p)
    (henc : Encrypt G r p key = .ok env) :
    ∃ data, b64Decode env = some data ∧
      data.length = 12 + p.length + 16 ∧
      env.length = (12 + p.length + 16 + 2) / 3 * 4 := by
  unfold Encrypt at henc
  rw [if_neg (by omega), if_neg (by simp [aesKeySizeOk_of_32 key hk]),
    if_neg (by decide)] at henc
  cases hr : r.read gcmNonceSize with
  | error e =>
      rw [hr] at henc
      exact absurd henc (by simp)
  | ok nonce =>
      simp only [hr] at henc
      have henv : env = b64Encode (nonce ++ G.Seal nonce p) := by
        injection henc with h'; exact h'.symm
      have hn12 : nonce.length = gcmNonceSize := r.read_length _ _ hr
      have hnv : Valid nonce := r.read_valid _ _ hr
      have hsv : Valid (G.Seal nonce p) := G.seal_valid _ _ hnv hp
      have hdv : Valid (nonce ++ G.Seal nonce p) := fun b hb =>
        (List.mem_append.mp hb).elim (hnv b) (hsv b)
      have hslen := G.seal_length nonce p hn12
      have hg : gcmNonceSize = 12 := rfl
      have ht : gcmTagSize = 16 := rfl
      refine ⟨nonce ++ G.Seal nonce p, ?_, ?_, ?_⟩
      · rw [henv]; exact b64Decode_b64Encode _ hdv
      · rw [List.length_append, hn12, hslen]; omega
      · rw [henv]
        show (b64EncodeBytes (nonce ++ G.Seal nonce p)).length = _
        rw [b64EncodeBytes_length, List.length_append, hn12, hslen]
        omega

/-- Witness for C6 at the spec's concrete scenario: the `"hello"` envelope
decodes to 33 bytes and is 44 characters long. -/
theorem C6_witness :
    ∃ data, b64Decode "AAAAAAAAAAAAAAAAaGVsbG8AAAAAAAAAAAAAAAAUAAAA"
        = some data ∧ data.length = 12 + 5 + 16 ∧
      ("AAAAAAAAAAAAAAAAaGVsbG8AAAAAAAAAAAAAAAAUAAAA" : String).length
        = (12 + 5 + 16 + 2) / 3 * 4 :=
  C6_envelope_length demoGCM (constRand 0) (List.replicate 32 0)
    [104, 101, 108, 108, 111] "AAAAAAAAAAAAAAAAaGVsbG8AAAAAAAAAAAAAAAAUAAAA"
    (by simp) (by unfold Valid; decide) (by rfl)

/-- C7: two `Seal` calls with the same key and plaintext whose drawn nonces
differ produce different envelopes. -/
theorem C7_nonce_freshness (G : AEAD) (r1 r2 : RandomSource) (key p n1 n2 : Bytes)
    (e1 e2 : String) (hk : key.length = 32) (hp : Valid p)
    (h1 : r1.read gcmNonceSize = .ok n1) (h2 : r2.read gcmNonceSize = .ok n2)
    (hne : n1 ≠ n2)
    (henc1 : Encrypt G r1 p key = .ok e1) (henc2 : Encrypt G r2 p key = .ok e2) :
    e1 ≠ e2 := by
  unfold Encrypt at henc1 henc2
  rw [if_neg (by omega), if_neg (by simp [aesKeySizeOk_of_32 key hk]),
    if_neg (by decide)] at henc1 henc2
  simp only [h1] at henc1
  simp only [h1, h2] at henc2
  have he1 : e1 = b64Encode (n1 ++ G.Seal n1 p) := by
    injection henc1 with h'; exact h'.symm
  have he2 : e2 = b64Encode (n2 ++ G.Seal n2 p) := by
    injection henc2 with h'; exact h'.symm
  intro he
  have hv1 : Valid (n1 ++ G.Seal n1 p) := fun b hb =>
    (List.mem_append.mp hb).elim (r1.read_valid _ _ h1 b)
      (G.seal_valid _ _ (r1.read_valid _ _ h1) hp b)
  have hv2 : Valid (n2 ++ G.Seal n2 p) := fun b hb =>
    (List.mem_append.mp hb).elim (r2.read_valid _ _ h2 b)
      (G.seal_valid _ _ (r2.read_valid _ _ h2) hp b)
  have hd1 : b64Decode e1 = some (n1 ++ G.Seal n1 p) := by
    rw [he1]; exact b64Decode_b64Encode _ hv1
  have hd2 : b64Decode e2 = some (n2 ++ G.Seal n2 p) := by
    rw [he2]; exact b64Decode_b64Encode _ hv2
  rw [he, hd2] at hd1
  injection hd1 with h'
  have hl : n2.length = n1.length := by
    rw [r1.read_length _ _ h1, r2.read_length _ _ h2]
  exact hne (List.append_inj h' hl).1.symm

/-- Witness for C7: the zero-nonce and one-nonce envelopes for `"hello"`
under the zero key differ. -/
theorem C7_witness :
    ("AAAAAAAAAAAAAAAAaGVsbG8AAAAAAAAAAAAAAAAUAAAA" : String)
      ≠ "AQEBAQEBAQEBAQEBaGVsbG8BAQEBAQEBAQEBAQEUAAAA" :=
  C7_nonce_freshness demoGCM (constRand 0) (constRand 1) (List.replicate 32 0)
    [104, 101, 108, 108, 111] (List.replicate 12 0) (List.replicate 12 1)
    "AAAAAAAAAAAAAAAAaGVsbG8AAAAAAAAAAAAAAAAUAAAA"
    "AQEBAQEBAQEBAQEBaGVsbG8BAQEBAQEBAQEBAQEUAAAA"
    (by simp) (by unfold Valid; decide) (by rfl) (by rfl) (by decide)
    (by rfl) (by rfl)

/-- C8: `GenerateKey` either returns exactly the 32 bytes drawn from the
secure source or fails with the randomness error; it never substitutes
other bytes or another length. -/
theorem C8_generate_key (r : RandomSource) :
    (∀ k, GenerateKey r = .ok k → k.length = 32 ∧ r.read 32 = .ok k) ∧
    (∀ e : Unit, r.read 32 = .error e →
        GenerateKey r = .error .keyGenerationFailed ∧
        isRandomnessUnavailable .keyGenerationFailed = true) := by
  constructor
  · intro k hok
    unfold GenerateKey at hok
    cases hr : r.read 32 with
    | error e =>
        rw [hr] at hok
        exact absurd hok (by simp)
    | ok b =>
        simp only [hr] at hok
        injection hok with h'
        subst h'
        exact ⟨r.read_length _ _ hr, rfl⟩
  · intro e he
    refine ⟨?_, rfl⟩
    unfold GenerateKey
    simp only [he]

/-- Witness for C8: the deterministic source yields a 32-byte key. -/
theorem C8_witness :
    (List.replicate 32 0 : Bytes).length = 32 ∧
      (constRand 0).read 32 = .ok (List.replicate 32 0) :=
  (C8_generate_key (constRand 0)).1 (List.replicate 32 0) (by rfl)

/-- C9: under a 32-byte key the AES-cipher-creation and GCM-creation error
branches are unreachable: `Encrypt` can fail only because the random
source failed, and `Decrypt` only with the base64, too-short, or
authentication error. -/
theorem C9_unreachable_cipher_branches (G : AEAD) (r : RandomSource)
    (key : Bytes) (hk : key.length = 32) :
    (∀ p e, Encrypt G r p key = .error e →
        e = .nonceGenerationFailed ∧ r.read gcmNonceSize = .error ()) ∧
    (∀ s e, Decrypt G s key = .error e →
        e = .base64DecodeFailed ∨ e = .ciphertextTooShort ∨
          e = .decryptionFailed) := by
  constructor
  · intro p e he
    unfold Encrypt at he
    rw [if_neg (by omega), if_neg (by simp [aesKeySizeOk_of_32 key hk]),
      if_neg (by decide)] at he
    cases hr : r.read gcmNonceSize with
    | error u =>
        simp only [hr] at he
        injection he with h'
        exact ⟨h'.symm, rfl⟩
    | ok nonce =>
        simp only [hr] at he
        exact absurd he (by simp)
  · intro s e he
    unfold Decrypt at he
    rw [if_neg (by omega)] at he
    cases hd : b64Decode s with
    | none =>
        simp only [hd] at he
        injection he with h'
        exact Or.inl h'.symm
    | some data =>
        simp only [hd] at he
        rw [if_neg (by simp [aesKeySizeOk_of_32 key hk]),
          if_neg (by decide)] at he
        by_cases hlen : data.length < gcmNonceSize
        · rw [if_pos hlen] at he
          injection he with h'
          exact Or.inr (Or.inl h'.symm)
        · rw [if_neg hlen] at he
          cases ho : G.Open (data.take gcmNonceSize) (data.drop gcmNonceSize) with
          | none =>
              simp only [ho] at he
              injection he with h'
              exact Or.inr (Or.inr h'.symm)
          | some q =>
              simp only [ho] at he
              exact absurd he (by simp)

/-- Witness for C9: with a failing random source, `Encrypt` under a valid
key fails with the nonce-generation error. -/
theorem C9_witness :
    CryptoError.nonceGenerationFailed = CryptoError.nonceGenerationFailed ∧
      failRand.read gcmNonceSize = .error () :=
  (C9_unreachable_cipher_branches demoGCM failRand (List.replicate 32 0)
    (by simp)).1 [] .nonceGenerationFailed (by rfl)

/-- C10: with a 32-byte key, an envelope whose decoded length is at least
12 but below 28 bytes passes the too-short check and fails at the AEAD
open step with the authentication error, not as a malformed envelope. -/
theorem C10_short_data_auth_failure (G : AEAD) (key : Bytes) (s : String)
    (data : Bytes) (hk : key.length = 32) (hdec : b64Decode s = some data)
    (hge : gcmNonceSize ≤ data.length)
    (hlt : data.length < gcmNonceSize + gcmTagSize) :
    Decrypt G s key = .error .decryptionFailed ∧
      isAuthenticationFailed .decryptionFailed = true := by
  refine ⟨?_, rfl⟩
  unfold Decrypt
  rw [if_neg (by omega)]
  simp only [hdec]
  rw [if_neg (by simp [aesKeySizeOk_of_32 key hk]), if_neg (by decide),
    if_neg (by omega), G.open_short _ _ (by rw [List.length_drop]; omega)]

/-- Witness for C10: an envelope decoding to exactly 12 zero bytes. -/
theorem C10_witness :
    Decrypt demoGCM "AAAAAAAAAAAAAAAA" (List.replicate 32 0)
        = .error .decryptionFailed ∧
      isAuthenticationFailed .decryptionFailed = true :=
  C10_short_data_auth_failure demoGCM (List.replicate 32 0) "AAAAAAAAAAAAAAAA"
    (List.replicate 12 0) (by simp) (by rfl) (by decide) (by decide)

end Encrypt
